import Mathlib

/-!
Verification of the sitemap crawler (src/students/jbimbert/main/main.go).

Strings are modelled as lists of characters (`Str`).  Go compares strings
byte-wise lexicographically; under UTF-8 this coincides with code-point
lexicographic order, which is the lexicographic order on `List Char`.
-/

namespace Sitemap

/-- Strings, modelled as lists of characters. -/
abbrev Str := List Char

/-- Conversion from Lean string literals. -/
def str (s : String) : Str := s.toList

/-- The `Link` record of the `links` package: an href and the anchor text. -/
structure Link where
  Href : Str
  Text : Str
deriving DecidableEq

instance : Inhabited Link := ⟨⟨[], []⟩⟩

/-- Go `strings.HasPrefix s p`. -/
def hasPrefix (s p : Str) : Bool := p.isPrefixOf s

/-- Go `strings.TrimSpace`: drop whitespace from both ends. -/
def trimSpace (s : Str) : Str :=
  ((s.dropWhile Char.isWhitespace).reverse.dropWhile Char.isWhitespace).reverse

/-- The scheme table `var schemes = [...]string{"https://", "http://"}` (main.go:26). -/
def schemes : List Str := [str "https://", str "http://"]

/-- Function `hasScheme` (main.go:32-39): does `s` begin with one of the defined
schemes followed by `withOption`? -/
def hasScheme (s withOption : Str) : Bool :=
  schemes.any fun p => hasPrefix s (p ++ withOption)

/-- Function `hasDomain` (main.go:76-78):
`len(s) > 1 && (string(s[0]) == "/" || hasScheme(s, domain+"/"))`. -/
def hasDomain (s domain : Str) : Bool :=
  decide (1 < s.length) && (s.head? == some '/' || hasScheme s (domain ++ str "/"))

/-- Function `filterLinks` (main.go:56-64). -/
def filterLinks (links : List Link) (f : Link → Bool) : List Link :=
  links.filter f

/-- Function `mapLinks` (main.go:67-73). -/
def mapLinks (links : List Link) (f : Link → Link) : List Link :=
  links.map f

/-- The filter predicate `parsePage` passes to `filterLinks` (main.go:113-116):
trim the href, keep the link when the trimmed href is non-empty and
`hasDomain` accepts it. -/
def filterPred (domain : Str) (l : Link) : Bool :=
  let ref := trimSpace l.Href
  ref != [] && hasDomain ref domain

/-- The normalizing function `parsePage` passes to `mapLinks` (main.go:118-123):
a href whose first character is `/` is rewritten to `schemes[0] + domain + href`.
Go indexes `l.Href[0]` directly (the filter guarantees the href is non-empty);
`head?` returns `none` on the empty href, which takes the unchanged branch. -/
def normalize (domain : Str) (l : Link) : Link :=
  if l.Href.head? == some '/' then
    { Href := str "https://" ++ domain ++ l.Href, Text := l.Text }
  else l

/-- The domain-filter predicate exactly as the spec words it (for comparison
with the code's `filterPred`): after trimming whitespace, the href is
non-empty AND (it starts with `/` OR with `http://<domain>/` OR with
`https://<domain>/`). -/
def specFilterPred (domain : Str) (l : Link) : Bool :=
  let ref := trimSpace l.Href
  ref != [] &&
    (hasPrefix ref (str "/") ||
      hasPrefix ref (str "http://" ++ domain ++ str "/") ||
      hasPrefix ref (str "https://" ++ domain ++ str "/"))

/-- Go `sort.Search`'s binary-search loop
(`i, j := 0, n; for i < j { h := (i+j)/2; if !f(h) { i = h+1 } else { j = h } }`),
with a gas argument bounding the number of iterations; the interval shrinks
at every iteration, so gas `j - i` always suffices. -/
def sortSearchAux (f : Nat → Bool) : Nat → Nat → Nat → Nat
  | 0, i, _ => i
  | gas + 1, i, j =>
    if i < j then
      if f ((i + j) / 2) then sortSearchAux f gas i ((i + j) / 2)
      else sortSearchAux f gas ((i + j) / 2 + 1) j
    else i

/-- Go `sort.Search(n, f)`. -/
def sortSearch (n : Nat) (f : Nat → Bool) : Nat := sortSearchAux f n 0 n

/-- The comparison `purgeTwins` sorts with (main.go:84-86): Go's `sort.Slice`
with less-function `links[i1].Href < links[i2].Href`, modelled as a comparison
sort whose output is nondecreasing by href (Go leaves the relative order of
equal-href entries unspecified). -/
def sortLinks (links : List Link) : List Link :=
  links.insertionSort fun a b => a.Href ≤ b.Href

/-- The search predicate of `purgeTwins` (main.go:88-90):
`l.Href == uniqLinks[i].Href`; the loop only probes indices below
`len uniqLinks`, out-of-range indices read a default link. -/
def purgeProbe (uniq : List Link) (l : Link) (i : Nat) : Bool :=
  l.Href == (uniq.getD i ⟨[], []⟩).Href

/-- The accumulation loop of `purgeTwins` (main.go:87-94): for each link of
the sorted input, append it to `uniqLinks` only when `sort.Search` does not
locate its href (`i >= len(uniqLinks)`). -/
def purgeLoop : List Link → List Link → List Link
  | [], uniq => uniq
  | l :: rest, uniq =>
    if uniq.length ≤ sortSearch uniq.length (purgeProbe uniq l) then
      purgeLoop rest (uniq ++ [l])
    else purgeLoop rest uniq

/-- Function `purgeTwins` (main.go:82-96): sort by href, then keep only the first
occurrence of each href. -/
def purgeTwins (links : List Link) : List Link :=
  purgeLoop (sortLinks links) []

instance : IsTotal Link fun a b => a.Href ≤ b.Href :=
  ⟨fun a b => le_total a.Href b.Href⟩

instance : IsTrans Link fun a b => a.Href ≤ b.Href :=
  ⟨fun _ _ _ h1 h2 => le_trans h1 h2⟩

instance : DecidableRel fun a b : Link => a.Href ≤ b.Href := fun a b =>
  inferInstanceAs (Decidable (a.Href ≤ b.Href))

/-- Error kinds of a run: fetch failures (`http.Get` / body read,
main.go:42-53), parse failures (`html.Parse`, main.go:105-108), and
output-file failures (`os.Create`, main.go:169-172). -/
inductive Err where
  | fetchError (url : Str)
  | parseError (url : Str)
  | ioError
deriving DecidableEq

/-- What the network holds for one URL: the fetch may fail, the fetched bytes
may fail to parse as markup, or parsing yields the raw links of the page in
document order (`Parse` of the `links` package, an external collaborator). -/
inductive PageResult where
  | fetchFail
  | parseFail
  | content (links : List Link)
deriving DecidableEq

/-- The fixed environment of a run: the fetchable pages keyed by URL; a URL
absent from the table fails to fetch. -/
abbrev Graph := List (Str × PageResult)

/-- The global registry `mLinks : map[string]Link` (main.go:27), modelled as
an association list with unique keys.  Go map iteration order is arbitrary;
where it matters (the output writers) the order is quantified over. -/
abbrev Registry := List (Str × Link)

/-- Function `parsePage` (main.go:99-128): load the page, parse it, extract the raw
links, drop those of a different domain, normalize root-relative hrefs, and
suppress twins. -/
def parsePage (g : Graph) (url domain : Str) : Except Err (List Link) :=
  match g.lookup url with
  | none => .error (.fetchError url)
  | some .fetchFail => .error (.fetchError url)
  | some .parseFail => .error (.parseError url)
  | some (.content links) =>
    .ok (purgeTwins (mapLinks (filterLinks links (filterPred domain)) (normalize domain)))

/-- Function `findAll` (main.go:131-148), with fuel making the recursion structural:
for each link, skip it when its href is already a key of the registry;
otherwise insert it and — when `maxDepth == -1 || depth < maxDepth` — parse
its page and recurse into the resulting links.  A `parsePage` error is
returned immediately; the error of the recursive call `findAll(newLinks, …)`
is discarded, exactly as in the source (main.go:144).  `none` means the fuel
ran out; the termination theorem shows enough fuel always exists. -/
def findAll (g : Graph) (domain : Str) (maxD : Int) :
    Nat → List Link → Int → Registry → Option (Registry × Option Err)
  | _, [], _, reg => some (reg, none)
  | 0, _ :: _, _, _ => none
  | fuel + 1, link :: rest, depth, reg =>
    if (reg.lookup link.Href).isSome then
      findAll g domain maxD fuel rest depth reg
    else
      if maxD = -1 ∨ depth < maxD then
        match parsePage g link.Href domain with
        | .error e => some ((link.Href, link) :: reg, some e)
        | .ok newLinks =>
          match findAll g domain maxD fuel newLinks (depth + 1) ((link.Href, link) :: reg) with
          | none => none
          | some (reg2, _) => findAll g domain maxD fuel rest depth reg2
      else
        findAll g domain maxD fuel rest depth ((link.Href, link) :: reg)

/-- Net effect of the `findAll` loop when the depth bound forbids expansion:
each link is inserted when absent; nothing is fetched. -/
def insertAll (links : List Link) (reg : Registry) : Registry :=
  links.foldl (fun r l => if (r.lookup l.Href).isSome then r else (l.Href, l) :: r) reg

/-- Number of graph keys not yet present in the registry: the termination
measure of the traversal. -/
def missCount (g : Graph) (reg : Registry) : Nat :=
  ((g.map Prod.fst).filter fun u => (reg.lookup u).isNone).length

/-- The command-line flags (main.go:196-198). -/
structure Flags where
  domain : Str
  outfile : Str
  depth : Int

/-- Computation of `fulldomain` (main.go:203-206): prepend `schemes[0]` when the domain flag
carries no scheme. -/
def fullDomain (domain : Str) : Str :=
  if hasScheme domain [] then domain else str "https://" ++ domain

/-- Observable outcome of `main`: `panic(err)` (main.go:214) terminates the
process abnormally with a non-zero status; otherwise `main` returns and the
process exits successfully. -/
inductive Outcome where
  | panicked (e : Err) (reg : Registry)
  | success (reg : Registry)
deriving DecidableEq

/-- Function `main` (main.go:195-223) up to the output step: build the root link from
the full domain, run `findAll` with the raw flag value as domain and the
configured depth, panic on a returned error.  The output step is `mainWrite`,
whose file-write error `main` discards (main.go:221). -/
def runMain (g : Graph) (fl : Flags) (fuel : Nat) : Option Outcome :=
  match findAll g fl.domain fl.depth fuel [⟨fullDomain fl.domain, str "Root link"⟩] 0 [] with
  | none => none
  | some (reg, some e) => some (.panicked e reg)
  | some (reg, none) => some (.success reg)

/-- Decimal rendering of a number (Go `fmt.Printf("%d")`). -/
def natToStr (n : Nat) : Str := (Nat.repr n).toList

/-- Concatenate with a separator between elements. -/
def joinWith (sep : Str) : List Str → Str
  | [] => []
  | [x] => x
  | x :: xs => x ++ sep ++ joinWith sep xs

/-- Function `writeBuf` (main.go:183-193): the text written to stdout — the count
line, then the hrefs sorted with `sort.Strings` in Go's `[]string` rendering
(space-separated inside brackets).  The registry is passed in whatever order
the Go map yields it. -/
def writeBufOutput (reg : Registry) : Str :=
  str "Number of links : " ++ natToStr reg.length ++ str "\n" ++
    str "[" ++
    joinWith (str " ") ((reg.map fun p => p.2.Href).insertionSort fun a b : Str => a ≤ b) ++
    str "]"

/-- The `url` record marshalled to XML (main.go:150-152). -/
structure url where
  Loc : Str
deriving DecidableEq

/-- The character escaping `encoding/xml` applies to character data. -/
def xmlEscape (s : Str) : Str :=
  s.flatMap fun c =>
    if c = '&' then str "&amp;"
    else if c = '<' then str "&lt;"
    else if c = '>' then str "&gt;"
    else if c = '\'' then str "&#39;"
    else if c = '"' then str "&#34;"
    else [c]

/-- The document `writeXml` produces (main.go:155-180): collect the registry
hrefs as `url` records, sort them by `Loc`, and write `xml.Header`, the
`<urlset>` open tag, `xml.MarshalIndent(&urls, "  ", "   ")` — one indented
`<url><loc>…</loc></url>` block per record — and the closing tag. -/
def writeXmlOutput (reg : Registry) : Str :=
  str "<?xml version=\"1.0\" encoding=\"UTF-8\"?>\n" ++
    str "<urlset xmlns=\"http://www.sitemaps.org/schemas/sitemap/0.9\">" ++
    joinWith (str "\n")
      (((reg.map fun p => url.mk p.2.Href).insertionSort fun a b : url => a.Loc ≤ b.Loc).map
        fun u => str "  <url>\n     <loc>" ++ xmlEscape u.Loc ++ str "</loc>\n  </url>") ++
    str "</urlset>"

/-- Effect of `writeXml` on the file system: when `os.Create` fails the error is
returned (main.go:169-172), otherwise the document is written and `nil`
returned. -/
def writeXml (createOk : Bool) (reg : Registry) : Except Err Str :=
  if createOk then .ok (writeXmlOutput reg) else .error .ioError

instance {α β : Type} [DecidableEq α] [DecidableEq β] : DecidableEq (Except α β) :=
  fun a b =>
    match a, b with
    | .error e1, .error e2 => decidable_of_iff (e1 = e2) (by simp)
    | .ok s1, .ok s2 => decidable_of_iff (s1 = s2) (by simp)
    | .error _, .ok _ => isFalse (by simp)
    | .ok _, .error _ => isFalse (by simp)

/-- Where `main`'s output goes. -/
inductive WriteAction where
  | toStdout (s : Str)
  | toFile (result : Except Err Str)
deriving DecidableEq

/-- Output step of `main` (main.go:218-222): plain listing to stdout when the
trimmed outfile is empty, else the XML file write — whose returned error
`main` silently discards (main.go:221 calls `writeXml(*outfile)` as a bare
statement). -/
def mainWrite (createOk : Bool) (outfile : Str) (reg : Registry) : WriteAction :=
  if trimSpace outfile = [] then .toStdout (writeBufOutput reg)
  else .toFile (writeXml createOk reg)

instance : DecidableRel fun a b : Str => a ≤ b := fun a b =>
  inferInstanceAs (Decidable (a ≤ b))

instance : IsTotal url fun a b => a.Loc ≤ b.Loc :=
  ⟨fun a b => le_total a.Loc b.Loc⟩

instance : IsTrans url fun a b => a.Loc ≤ b.Loc :=
  ⟨fun _ _ _ h1 h2 => le_trans h1 h2⟩

instance : IsAntisymm url fun a b => a.Loc ≤ b.Loc :=
  ⟨fun a b h1 h2 => by cases a; cases b; simp only [url.mk.injEq]; exact le_antisymm h1 h2⟩

instance : DecidableRel fun a b : url => a.Loc ≤ b.Loc := fun a b =>
  inferInstanceAs (Decidable (a.Loc ≤ b.Loc))

/-- Fixture: a graph whose root page `https://e.com` links to `/a`; the
child URL `https://e.com/a` itself is not fetchable. -/
def gOneChild : Graph := [(str "https://e.com", .content [⟨str "/a", str "A"⟩])]

/-- Fixture: a graph whose root page carries a link with a leading space in
its href (`" /a"`). -/
def gSpace : Graph := [(str "https://e.com", .content [⟨str " /a", str "A"⟩])]

/-- Fixture: the synthetic cycle A → B → A over `https://e.com/a` and
`https://e.com/b`. -/
def gCycle : Graph :=
  [(str "https://e.com/a", .content [⟨str "https://e.com/b", str "b"⟩]),
   (str "https://e.com/b", .content [⟨str "https://e.com/a", str "a"⟩])]

/-! ## Theorems -/

/-- C2 counterexample: with domain `example.com` and href `"/"`, the trimmed
href is non-empty and starts with `/`, so the claim's predicate keeps it; the
code drops it because `hasDomain` demands `len(s) > 1` (main.go:77). -/
theorem c2_filter_counterexample :
    specFilterPred (str "example.com") ⟨str "/", []⟩ = true ∧
    filterPred (str "example.com") ⟨str "/", []⟩ = false := by
  decide

/-- C2 (amended): the domain filter keeps a link iff, after trimming
whitespace from its href, the trimmed href has length at least 2 AND (it
starts with `/` OR it starts with `http://<domain>/` or `https://<domain>/`);
with domain `example.com`, of the hrefs `/a`, `http://example.com/a`,
`https://example.com/a`, `http://other.com/a`, `mailto:x@y.com`, the empty
href and a blank href, exactly the first three pass, and `/a` normalizes to
`https://example.com/a`. -/
theorem c2_filter_spec :
    (∀ domain : Str, ∀ l : Link,
        filterPred domain l = true ↔
          1 < (trimSpace l.Href).length ∧
            (str "/" <+: trimSpace l.Href ∨
              str "http://" ++ domain ++ str "/" <+: trimSpace l.Href ∨
              str "https://" ++ domain ++ str "/" <+: trimSpace l.Href)) ∧
    filterPred (str "example.com") ⟨str "/a", []⟩ = true ∧
    filterPred (str "example.com") ⟨str "http://example.com/a", []⟩ = true ∧
    filterPred (str "example.com") ⟨str "https://example.com/a", []⟩ = true ∧
    filterPred (str "example.com") ⟨str "http://other.com/a", []⟩ = false ∧
    filterPred (str "example.com") ⟨str "mailto:x@y.com", []⟩ = false ∧
    filterPred (str "example.com") ⟨str "", []⟩ = false ∧
    filterPred (str "example.com") ⟨str "   ", []⟩ = false ∧
    normalize (str "example.com") ⟨str "/a", []⟩ =
      ⟨str "https://example.com/a", str ""⟩ := by
  refine ⟨?_, by decide, by decide, by decide, by decide, by decide, by decide,
    by decide, by decide⟩
  intro domain l
  simp only [filterPred, hasDomain, hasScheme, schemes, hasPrefix,
    List.any_cons, List.any_nil, Bool.and_eq_true, Bool.or_eq_true, bne_iff_ne,
    ne_eq, decide_eq_true_eq, List.isPrefixOf_iff_prefix, beq_iff_eq,
    Bool.false_eq_true, or_false, List.append_assoc]
  constructor
  · rintro ⟨-, hlen, hcase⟩
    refine ⟨hlen, ?_⟩
    rcases hcase with hslash | hs | hs
    · left
      cases h : trimSpace l.Href with
      | nil => simp [h] at hslash
      | cons c t => simp [h] at hslash ⊢; simp [str, hslash]
    · right; right; exact hs
    · right; left; exact hs
  · rintro ⟨hlen, hcase⟩
    refine ⟨by intro h; rw [h] at hlen; simp at hlen, hlen, ?_⟩
    rcases hcase with hslash | hs | hs
    · left
      cases h : trimSpace l.Href with
      | nil => simp [h] at hslash; simp [str] at hslash
      | cons c t =>
        rw [h] at hslash
        simp only [str] at hslash
        simp only [h, List.head?_cons, Option.some.injEq]
        rcases List.cons_prefix_cons.mp hslash with ⟨rfl, -⟩
        rfl
    · right; right; exact hs
    · right; left; exact hs

theorem sortSearchAux_all_false (f : Nat → Bool) :
    ∀ gas i j, i ≤ j → j - i ≤ gas → (∀ k, i ≤ k → k < j → f k = false) →
      sortSearchAux f gas i j = j := by
  intro gas
  induction gas with
  | zero =>
    intro i j hij hgas _
    simp only [sortSearchAux]
    omega
  | succ g ih =>
    intro i j hij hgas hall
    by_cases h : i < j
    · simp only [sortSearchAux]
      rw [if_pos h, hall ((i + j) / 2) (by omega) (by omega)]
      simp only [Bool.false_eq_true, if_false]
      exact ih ((i + j) / 2 + 1) j (by omega) (by omega)
        fun k hk1 hk2 => hall k (by omega) hk2
    · simp only [sortSearchAux]
      rw [if_neg h]
      omega

theorem sortSearchAux_last_true (f : Nat → Bool) :
    ∀ gas i j, i < j → j - i ≤ gas → f (j - 1) = true →
      (∀ k, i ≤ k → k < j - 1 → f k = false) →
      sortSearchAux f gas i j = j - 1 := by
  intro gas
  induction gas with
  | zero => intro i j hij hgas _ _; omega
  | succ g ih =>
    intro i j hij hgas htrue hfalse
    simp only [sortSearchAux]
    rw [if_pos hij]
    rcases Nat.lt_or_ge ((i + j) / 2) (j - 1) with hm | hm
    · rw [hfalse ((i + j) / 2) (by omega) hm]
      simp only [Bool.false_eq_true, if_false]
      exact ih ((i + j) / 2 + 1) j (by omega) (by omega) htrue
        fun k hk1 hk2 => hfalse k (by omega) hk2
    · have hmeq : (i + j) / 2 = j - 1 := by omega
      rw [hmeq, htrue, if_pos rfl]
      exact sortSearchAux_all_false f g i (j - 1) (by omega) (by omega) hfalse

/-- When the current link's href is absent from `uniqLinks`, every probe of
the binary search answers false and the link is appended. -/
theorem purgeLoop_cons_not_mem (rest uniq : List Link) (l : Link)
    (hnot : l.Href ∉ uniq.map Link.Href) :
    purgeLoop (l :: rest) uniq = purgeLoop rest (uniq ++ [l]) := by
  have hsearch : sortSearch uniq.length (purgeProbe uniq l) = uniq.length := by
    refine sortSearchAux_all_false _ _ 0 uniq.length (Nat.zero_le _) (by omega) ?_
    intro k _ hk
    simp only [purgeProbe]
    rw [List.getD_eq_getElem uniq ⟨[], []⟩ hk, beq_eq_false_iff_ne]
    intro he
    exact hnot (List.mem_map.mpr ⟨_, List.getElem_mem hk, he.symm⟩)
  simp only [purgeLoop, hsearch]
  rw [if_pos le_rfl]

/-- When `uniqLinks` is strictly sorted, every entry is at most the current
link's href, and the href is present, it can only sit at the last position;
the binary search finds it there and the link is skipped. -/
theorem purgeLoop_cons_mem (rest uniq : List Link) (l : Link)
    (hu : uniq.Pairwise fun a b => a.Href < b.Href)
    (hle : ∀ u ∈ uniq, u.Href ≤ l.Href)
    (hmem : l.Href ∈ uniq.map Link.Href) :
    purgeLoop (l :: rest) uniq = purgeLoop rest uniq := by
  obtain ⟨u, hu_mem, hu_href⟩ := List.mem_map.mp hmem
  obtain ⟨k, hk, hk_eq⟩ := List.getElem_of_mem hu_mem
  have hn : 0 < uniq.length := by omega
  have hn1 : uniq.length - 1 < uniq.length := by omega
  have hlast : (uniq.getD (uniq.length - 1) ⟨[], []⟩).Href = l.Href := by
    rw [List.getD_eq_getElem uniq ⟨[], []⟩ hn1]
    rcases Nat.lt_or_ge k (uniq.length - 1) with hklt | hkge
    · exfalso
      have hlt := (List.pairwise_iff_getElem.mp hu) k (uniq.length - 1) hk hn1 hklt
      simp only at hlt
      rw [hk_eq, hu_href] at hlt
      exact absurd (hle _ (List.getElem_mem hn1)) (not_le_of_lt hlt)
    · have hkk : k = uniq.length - 1 := by omega
      subst hkk
      rw [hk_eq, hu_href]
  have hsearch : sortSearch uniq.length (purgeProbe uniq l) = uniq.length - 1 := by
    refine sortSearchAux_last_true _ _ 0 uniq.length hn (by omega) ?_ ?_
    · simp only [purgeProbe]
      rw [beq_iff_eq, hlast]
    · intro k' _ hk'
      have hk'lt : k' < uniq.length := by omega
      simp only [purgeProbe]
      rw [List.getD_eq_getElem uniq ⟨[], []⟩ hk'lt, beq_eq_false_iff_ne]
      intro he
      have hlt := (List.pairwise_iff_getElem.mp hu) k' (uniq.length - 1) hk'lt hn1 hk'
      simp only at hlt
      rw [List.getD_eq_getElem uniq ⟨[], []⟩ hn1] at hlast
      rw [hlast] at hlt
      rw [he] at hlt
      exact lt_irrefl _ hlt
  simp only [purgeLoop, hsearch]
  rw [if_neg (by omega)]

/-- Invariant of the `purgeTwins` accumulation loop: starting from a strictly
sorted `uniqLinks` dominated by a nondecreasing remainder, the loop returns a
strictly sorted list whose hrefs are exactly those of `uniqLinks` and of the
remainder. -/
theorem purgeLoop_spec :
    ∀ rest uniq : List Link, uniq.Pairwise (fun a b => a.Href < b.Href) →
      List.Sorted (fun a b : Link => a.Href ≤ b.Href) rest →
      (∀ u ∈ uniq, ∀ r ∈ rest, u.Href ≤ r.Href) →
      (purgeLoop rest uniq).Pairwise (fun a b => a.Href < b.Href) ∧
      ∀ h, h ∈ (purgeLoop rest uniq).map Link.Href ↔
        h ∈ uniq.map Link.Href ∨ h ∈ rest.map Link.Href := by
  intro rest
  induction rest with
  | nil =>
    intro uniq hu _ _
    exact ⟨hu, by simp [purgeLoop]⟩
  | cons l rest ih =>
    intro uniq hu hs hcross
    have hs' := (List.sorted_cons.mp hs).2
    have hl_rest := (List.sorted_cons.mp hs).1
    by_cases hmem : l.Href ∈ uniq.map Link.Href
    · rw [purgeLoop_cons_mem rest uniq l hu
        (fun u hu' => hcross u hu' l (List.mem_cons_self l rest)) hmem]
      obtain ⟨hp, hm⟩ := ih uniq hu hs'
        fun u hu' r hr => hcross u hu' r (List.mem_cons_of_mem l hr)
      refine ⟨hp, fun h => ?_⟩
      rw [hm h]
      constructor
      · rintro (h1 | h2)
        · exact Or.inl h1
        · exact Or.inr (by simp [h2])
      · rintro (h1 | h2)
        · exact Or.inl h1
        · rcases List.mem_map.mp h2 with ⟨x, hx, rfl⟩
          rcases List.mem_cons.mp hx with rfl | hx'
          · exact Or.inl hmem
          · exact Or.inr (List.mem_map.mpr ⟨x, hx', rfl⟩)
    · rw [purgeLoop_cons_not_mem rest uniq l hmem]
      have hu' : (uniq ++ [l]).Pairwise fun a b => a.Href < b.Href := by
        rw [List.pairwise_append]
        refine ⟨hu, List.pairwise_singleton _ _, ?_⟩
        intro u hu'' x hx
        have hx' : l = x := (List.mem_singleton.mp hx).symm
        subst hx'
        refine lt_of_le_of_ne (hcross u hu'' l (List.mem_cons_self l rest)) ?_
        intro he
        exact hmem (List.mem_map.mpr ⟨u, hu'', he⟩)
      have hcross' : ∀ u ∈ uniq ++ [l], ∀ r ∈ rest, u.Href ≤ r.Href := by
        intro u hu'' r hr
        rcases List.mem_append.mp hu'' with h1 | h2
        · exact hcross u h1 r (List.mem_cons_of_mem l hr)
        · have h2' : l = u := (List.mem_singleton.mp h2).symm
          subst h2'
          exact hl_rest r hr
      obtain ⟨hp, hm⟩ := ih (uniq ++ [l]) hu' hs' hcross'
      refine ⟨hp, fun h => ?_⟩
      rw [hm h, List.map_append]
      constructor
      · rintro (h1 | h2)
        · rcases List.mem_append.mp h1 with ha | hb
          · exact Or.inl ha
          · simp only [List.map_cons, List.map_nil, List.mem_singleton] at hb
            exact Or.inr (by simp [hb])
        · refine Or.inr ?_
          simp only [List.map_cons, List.mem_cons]
          exact Or.inr h2
      · rintro (h1 | h2)
        · exact Or.inl (List.mem_append.mpr (Or.inl h1))
        · simp only [List.map_cons, List.mem_cons] at h2
          rcases h2 with rfl | h2
          · exact Or.inl (List.mem_append.mpr (Or.inr (by simp)))
          · exact Or.inr h2

/-- The output of `purgeTwins` is strictly sorted by href. -/
theorem purgeTwins_pairwise (links : List Link) :
    (purgeTwins links).Pairwise fun a b => a.Href < b.Href :=
  (purgeLoop_spec (sortLinks links) [] (List.Pairwise.nil)
    (List.sorted_insertionSort _ links) (by simp)).1

/-- The hrefs of `purgeTwins links` are exactly the hrefs of `links`. -/
theorem purgeTwins_mem_map (links : List Link) :
    ∀ h, h ∈ (purgeTwins links).map Link.Href ↔ h ∈ links.map Link.Href := by
  intro h
  have := (purgeLoop_spec (sortLinks links) [] (List.Pairwise.nil)
    (List.sorted_insertionSort _ links) (by simp)).2 h
  rw [purgeTwins, this]
  have hperm : List.Perm ((sortLinks links).map Link.Href) (links.map Link.Href) :=
    (List.perm_insertionSort _ links).map Link.Href
  simp [hperm.mem_iff]

/-- On an input whose hrefs are already strictly increasing, the loop appends
every link: nothing is ever found by the search. -/
theorem purgeLoop_of_strict :
    ∀ rest uniq : List Link,
      (uniq ++ rest).Pairwise (fun a b => a.Href < b.Href) →
      purgeLoop rest uniq = uniq ++ rest := by
  intro rest
  induction rest with
  | nil => intro uniq _; simp [purgeLoop]
  | cons l rest ih =>
    intro uniq hall
    have hmem : l.Href ∉ uniq.map Link.Href := by
      intro hmem
      obtain ⟨u, hu_mem, hu_href⟩ := List.mem_map.mp hmem
      have := (List.pairwise_append.mp hall).2.2 u hu_mem l (List.mem_cons_self l rest)
      rw [hu_href] at this
      exact lt_irrefl _ this
    rw [purgeLoop_cons_not_mem rest uniq l hmem, ih (uniq ++ [l]) (by simpa using hall)]
    simp

/-- C6: for every input sequence of Links, `purgeTwins` returns a sequence
sorted ascending by href in which each href occurs exactly once (the list of
output hrefs has no duplicates), and the hrefs of the output are exactly the
hrefs of the input. -/
theorem c6_purgeTwins_spec :
    ∀ links : List Link,
      List.Sorted (fun a b : Link => a.Href ≤ b.Href) (purgeTwins links) ∧
      ((purgeTwins links).map Link.Href).Nodup ∧
      ∀ h, h ∈ (purgeTwins links).map Link.Href ↔ h ∈ links.map Link.Href := by
  intro links
  refine ⟨(purgeTwins_pairwise links).imp (fun {a b} h => le_of_lt h),
    ?_, purgeTwins_mem_map links⟩
  exact List.Pairwise.map _ (fun a b h => ne_of_lt h) (purgeTwins_pairwise links)

/-- C7: dedup is idempotent: `purgeTwins (purgeTwins S) = purgeTwins S` for
every input sequence `S` of Links. -/
theorem c7_purgeTwins_idempotent :
    ∀ S : List Link, purgeTwins (purgeTwins S) = purgeTwins S := by
  intro S
  have hp := purgeTwins_pairwise S
  have hsorted : List.Sorted (fun a b : Link => a.Href ≤ b.Href) (purgeTwins S) :=
    hp.imp fun {a b} h => le_of_lt h
  have hsort_eq : sortLinks (purgeTwins S) = purgeTwins S :=
    List.Sorted.insertionSort_eq hsorted
  show purgeLoop (sortLinks (purgeTwins S)) [] = purgeTwins S
  rw [hsort_eq]
  have := purgeLoop_of_strict (purgeTwins S) [] (by simpa using hp)
  simpa using this

/-- When the depth guard `maxDepth == -1 || depth < maxDepth` fails, the
`findAll` loop only inserts absent links — no page is fetched (the result
does not mention the graph). -/
theorem findAll_at_limit (g : Graph) (domain : Str) (maxD : Int) :
    ∀ links fuel (reg : Registry) (depth : Int),
      links.length ≤ fuel → ¬(maxD = -1 ∨ depth < maxD) →
      findAll g domain maxD fuel links depth reg = some (insertAll links reg, none) := by
  intro links
  induction links with
  | nil =>
    intro fuel reg depth _ _
    cases fuel <;> rfl
  | cons l rest ih =>
    intro fuel reg depth hlen hcond'
    obtain ⟨m, rfl⟩ : ∃ m, fuel = m + 1 := ⟨fuel - 1, by simp at hlen; omega⟩
    have hrest : rest.length ≤ m := by simp at hlen; omega
    simp only [findAll]
    have hstep : insertAll (l :: rest) reg =
        insertAll rest (if (reg.lookup l.Href).isSome then reg else (l.Href, l) :: reg) := rfl
    by_cases hf : (reg.lookup l.Href).isSome
    · rw [if_pos hf, hstep, if_pos hf]
      exact ih m reg depth hrest hcond'
    · rw [if_neg hf, if_neg hcond', hstep, if_neg hf]
      exact ih m ((l.Href, l) :: reg) depth hrest hcond'

/-- C4: (i) with `maxDepth = 0` the final registry holds exactly the root
link — no page is expanded; (ii) with `maxDepth = 1` it holds the root plus
the same-domain children `parsePage` extracts from the root page and nothing
else (the children's own pages are not expanded); (iii) in general, whenever
`¬(maxDepth = -1 ∨ depth < maxDepth)` the loop only inserts the frontier
links and consults no page of the graph. -/
theorem c4_depth_bound :
    (∀ (g : Graph) (domain : Str) (root : Link) (fuel : Nat),
      findAll g domain 0 (fuel + 1) [root] 0 [] = some ([(root.Href, root)], none)) ∧
    (∀ (g : Graph) (domain : Str) (root : Link) (children : List Link) (fuel : Nat),
      parsePage g root.Href domain = .ok children → children.length ≤ fuel →
      findAll g domain 1 (fuel + 1) [root] 0 [] =
        some (insertAll children [(root.Href, root)], none)) ∧
    (∀ (g : Graph) (domain : Str) (maxD : Int) (links : List Link) (fuel : Nat)
        (reg : Registry) (depth : Int),
      links.length ≤ fuel → ¬(maxD = -1 ∨ depth < maxD) →
      findAll g domain maxD fuel links depth reg = some (insertAll links reg, none)) := by
  refine ⟨?_, ?_, fun g domain maxD links fuel reg depth h1 h2 =>
    findAll_at_limit g domain maxD links fuel reg depth h1 h2⟩
  · intro g domain root fuel
    simp only [findAll]
    rw [if_neg (by simp), if_neg (by omega)]
  · intro g domain root children fuel hparse hlen
    have hnested : findAll g domain 1 fuel children 1 [(root.Href, root)] =
        some (insertAll children [(root.Href, root)], none) :=
      findAll_at_limit g domain 1 children fuel [(root.Href, root)] 1 hlen (by omega)
    simp only [findAll]
    rw [if_neg (by simp), if_pos (by omega), hparse]
    simp only [zero_add, hnested]

/-- C4 witness: the depth-bound theorem applied to the one-child fixture. -/
theorem c4_depth_bound_witness :
    findAll gOneChild (str "e.com") 1 3 [⟨str "https://e.com", str "Root link"⟩] 0 [] =
      some (insertAll [⟨str "https://e.com/a", str "A"⟩]
        [(str "https://e.com", ⟨str "https://e.com", str "Root link"⟩)], none) :=
  c4_depth_bound.2.1 gOneChild (str "e.com") ⟨str "https://e.com", str "Root link"⟩
    [⟨str "https://e.com/a", str "A"⟩] 2 (by decide) (by decide)

/-- Fuel monotonicity: once `findAll` completes within some fuel, any larger
fuel yields the same result. -/
theorem findAll_mono (g : Graph) (domain : Str) (maxD : Int) :
    ∀ fuel links depth reg r, findAll g domain maxD fuel links depth reg = some r →
      ∀ fuel', fuel ≤ fuel' → findAll g domain maxD fuel' links depth reg = some r := by
  intro fuel
  induction fuel with
  | zero =>
    intro links depth reg r h fuel' _
    cases links with
    | nil => cases fuel' <;> exact h
    | cons l rest => exact absurd h (by simp [findAll])
  | succ n ih =>
    intro links depth reg r h fuel' hle
    cases links with
    | nil => cases fuel' <;> exact h
    | cons l rest =>
      obtain ⟨m, rfl⟩ : ∃ m, fuel' = m + 1 := ⟨fuel' - 1, by omega⟩
      have hmn : n ≤ m := by omega
      simp only [findAll] at h ⊢
      by_cases hf : (reg.lookup l.Href).isSome
      · rw [if_pos hf] at h ⊢
        exact ih _ _ _ _ h m hmn
      · rw [if_neg hf] at h ⊢
        by_cases hc : maxD = -1 ∨ depth < maxD
        · rw [if_pos hc] at h ⊢
          cases hp : parsePage g l.Href domain with
          | error e =>
            rw [hp] at h
            simp only at h
            exact h
          | ok newLinks =>
            rw [hp] at h
            simp only at h
            cases hn : findAll g domain maxD n newLinks (depth + 1) ((l.Href, l) :: reg) with
            | none => rw [hn] at h; simp at h
            | some r2 =>
              obtain ⟨reg2, e2⟩ := r2
              rw [hn] at h
              simp only at h
              simp only
              rw [ih _ _ _ _ hn m hmn]
              simp only
              exact ih _ _ _ _ h m hmn
        · rw [if_neg hc] at h ⊢
          exact ih _ _ _ _ h m hmn

/-- The registry only grows along `findAll`: keys present at the start are
present (with the same value never replaced, hence still present) at the
end. -/
theorem findAll_keys (g : Graph) (domain : Str) (maxD : Int) :
    ∀ fuel links depth reg reg' e,
      findAll g domain maxD fuel links depth reg = some (reg', e) →
      ∀ k, (reg.lookup k).isSome → (reg'.lookup k).isSome := by
  have hins : ∀ (reg : Registry) (l : Link) (k : Str),
      (reg.lookup k).isSome → (((l.Href, l) :: reg).lookup k).isSome := by
    intro reg l k hk
    by_cases h : k = l.Href
    · subst h; simp [List.lookup_cons]
    · rw [List.lookup_cons]
      have : (k == l.Href) = false := beq_eq_false_iff_ne.mpr h
      rw [this]
      exact hk
  intro fuel
  induction fuel with
  | zero =>
    intro links depth reg reg' e h k hk
    cases links with
    | nil =>
      simp only [findAll, Option.some.injEq, Prod.mk.injEq] at h
      rw [← h.1]
      exact hk
    | cons l rest => exact absurd h (by simp [findAll])
  | succ n ih =>
    intro links depth reg reg' e h k hk
    cases links with
    | nil =>
      simp only [findAll, Option.some.injEq, Prod.mk.injEq] at h
      rw [← h.1]
      exact hk
    | cons l rest =>
      simp only [findAll] at h
      by_cases hf : (reg.lookup l.Href).isSome
      · rw [if_pos hf] at h
        exact ih _ _ _ _ _ h k hk
      · rw [if_neg hf] at h
        by_cases hc : maxD = -1 ∨ depth < maxD
        · rw [if_pos hc] at h
          cases hp : parsePage g l.Href domain with
          | error e' =>
            rw [hp] at h
            simp only [Option.some.injEq, Prod.mk.injEq] at h
            rw [← h.1]
            exact hins reg l k hk
          | ok newLinks =>
            rw [hp] at h
            simp only at h
            cases hn : findAll g domain maxD n newLinks (depth + 1) ((l.Href, l) :: reg) with
            | none => rw [hn] at h; simp at h
            | some r2 =>
              obtain ⟨reg2, e2⟩ := r2
              rw [hn] at h
              simp only at h
              exact ih _ _ _ _ _ h k (ih _ _ _ _ _ hn k (hins reg l k hk))
        · rw [if_neg hc] at h
          exact ih _ _ _ _ _ h k (hins reg l k hk)

/-- Keys survive a registry insertion. -/
theorem lookup_insert_isSome (reg : Registry) (l : Link) (k : Str)
    (hk : (reg.lookup k).isSome) : (((l.Href, l) :: reg).lookup k).isSome := by
  by_cases h : k = l.Href
  · subst h; simp [List.lookup_cons]
  · rw [List.lookup_cons]
    have hbeq : (k == l.Href) = false := beq_eq_false_iff_ne.mpr h
    rw [hbeq]
    simp only
    exact hk

/-- A looked-up key is among the mapped keys. -/
theorem lookup_some_mem_keys {β : Type} (g : List (Str × β)) (k : Str) :
    (g.lookup k).isSome = true → k ∈ g.map Prod.fst := by
  induction g with
  | nil => simp [List.lookup_nil]
  | cons p g ih =>
    obtain ⟨k', v⟩ := p
    intro h
    rw [List.lookup_cons] at h
    cases hbeq : k == k' with
    | false =>
      rw [hbeq] at h
      simp only at h
      exact List.mem_cons_of_mem _ (ih h)
    | true =>
      have hk : k = k' := by simpa using hbeq
      rw [List.map_cons]
      exact hk ▸ List.mem_cons_self _ _

/-- Strict `countP` decrease: a predicate that implies another and newly
fails at a member of the list counts strictly fewer elements. -/
theorem countP_lt_of_mem {α : Type} (xs : List α) (p q : α → Bool)
    (himp : ∀ a ∈ xs, q a = true → p a = true) (a : α) (ha : a ∈ xs)
    (hpa : p a = true) (hqa : q a = false) :
    xs.countP q < xs.countP p := by
  induction xs with
  | nil => simp at ha
  | cons x xs ih =>
    rw [List.countP_cons, List.countP_cons]
    rcases List.mem_cons.mp ha with rfl | ha'
    · have hmono : xs.countP q ≤ xs.countP p :=
        List.countP_mono_left fun b hb hq => himp b (List.mem_cons_of_mem _ hb) hq
      rw [hpa, hqa]
      simp only [Bool.false_eq_true, if_false, if_true]
      omega
    · have hx : (if q x = true then 1 else 0) ≤ (if p x = true then 1 else 0) := by
        by_cases hqx : q x = true
        · rw [himp x (List.mem_cons_self x xs) hqx, hqx]
        · simp [hqx]
      have hrec := ih (fun b hb hq => himp b (List.mem_cons_of_mem _ hb) hq) ha'
      omega

/-- A registry whose key set only grew misses no more graph keys. -/
theorem missCount_le_of_lookup (g : Graph) (reg reg' : Registry)
    (h : ∀ k, (reg.lookup k).isSome → (reg'.lookup k).isSome) :
    missCount g reg' ≤ missCount g reg := by
  unfold missCount
  rw [← List.countP_eq_length_filter, ← List.countP_eq_length_filter]
  refine List.countP_mono_left ?_
  intro u _ hu
  simp only [Option.isNone_iff_eq_none] at hu ⊢
  by_contra hne
  have hs : (reg.lookup u).isSome := by
    cases hcase : reg.lookup u
    · exact absurd hcase hne
    · rfl
  have := h u hs
  rw [hu] at this
  simp at this

/-- Inserting an absent graph key strictly decreases the number of missing
graph keys. -/
theorem missCount_insert_lt (g : Graph) (reg : Registry) (l : Link)
    (hnot : (reg.lookup l.Href).isSome = false)
    (hmem : l.Href ∈ g.map Prod.fst) :
    missCount g ((l.Href, l) :: reg) < missCount g reg := by
  unfold missCount
  rw [← List.countP_eq_length_filter, ← List.countP_eq_length_filter]
  refine countP_lt_of_mem (g.map Prod.fst) _ _ ?_ l.Href hmem ?_ ?_
  · intro a _ hq
    simp only at hq ⊢
    rw [List.lookup_cons] at hq
    cases hbeq : a == l.Href with
    | false =>
      rw [hbeq] at hq
      simp only at hq
      exact hq
    | true =>
      rw [hbeq] at hq
      simp at hq
  · simp only [Option.isNone_iff_eq_none]
    cases hcase : reg.lookup l.Href
    · rfl
    · rw [hcase] at hnot; simp at hnot
  · simp [List.lookup_cons]

/-- For every traversal configuration there is enough fuel: the measure is
the number of graph keys not yet registered. -/
theorem findAll_exists (g : Graph) (domain : Str) (maxD : Int) :
    ∀ (m : Nat) (links : List Link) (depth : Int) (reg : Registry),
      missCount g reg ≤ m →
      ∃ fuel r, findAll g domain maxD fuel links depth reg = some r := by
  intro m
  induction m using Nat.strong_induction_on with
  | _ m IH =>
    intro links
    induction links with
    | nil =>
      intro depth reg _
      exact ⟨0, (reg, none), rfl⟩
    | cons l rest ihRest =>
      intro depth reg hm
      by_cases hf : (reg.lookup l.Href).isSome
      · obtain ⟨f, r, hr⟩ := ihRest depth reg hm
        refine ⟨f + 1, r, ?_⟩
        simp only [findAll]
        rw [if_pos hf]
        exact hr
      · by_cases hc : maxD = -1 ∨ depth < maxD
        · cases hp : parsePage g l.Href domain with
          | error e =>
            refine ⟨1, ((l.Href, l) :: reg, some e), ?_⟩
            simp only [findAll]
            rw [if_neg hf, if_pos hc, hp]
          | ok newLinks =>
            have hmemk : l.Href ∈ g.map Prod.fst := by
              cases hl : g.lookup l.Href with
              | none =>
                simp only [parsePage, hl] at hp
                exact Except.noConfusion hp
              | some pr =>
                refine lookup_some_mem_keys g l.Href ?_
                rw [hl]
                rfl
            have hlt := missCount_insert_lt g reg l
              (by simp only [Bool.not_eq_true] at hf; exact hf) hmemk
            have hm1 : missCount g ((l.Href, l) :: reg) < m := lt_of_lt_of_le hlt hm
            obtain ⟨f2, r2, h2⟩ := IH _ hm1 newLinks (depth + 1) ((l.Href, l) :: reg) le_rfl
            obtain ⟨reg2, e2⟩ := r2
            have hkeys := findAll_keys g domain maxD f2 _ _ _ _ _ h2
            have hm2 : missCount g reg2 ≤ missCount g ((l.Href, l) :: reg) :=
              missCount_le_of_lookup g _ _ hkeys
            obtain ⟨f3, r3, h3⟩ := ihRest depth reg2 (le_trans hm2 (le_of_lt hm1))
            refine ⟨max f2 f3 + 1, r3, ?_⟩
            simp only [findAll]
            rw [if_neg hf, if_pos hc, hp]
            simp only
            rw [findAll_mono g domain maxD f2 _ _ _ _ h2 (max f2 f3) (le_max_left _ _)]
            simp only
            exact findAll_mono g domain maxD f3 _ _ _ _ h3 (max f2 f3) (le_max_right _ _)
        · obtain ⟨f, r, hr⟩ := ihRest depth ((l.Href, l) :: reg)
            (le_trans (missCount_le_of_lookup g _ _
              (fun k hk => lookup_insert_isSome reg l k hk)) hm)
          refine ⟨f + 1, r, ?_⟩
          simp only [findAll]
          rw [if_neg hf, if_neg hc]
          exact hr

/-- C5: the traversal terminates on every (finite) link graph: for every
configuration some fuel suffices and the result is stable under any larger
fuel; and on the synthetic cycle A → B → A (`gCycle`) it terminates with the
registry holding exactly A and B. -/
theorem c5_termination_cycle :
    (∀ (g : Graph) (domain : Str) (maxD : Int) (links : List Link) (depth : Int)
        (reg : Registry),
      ∃ fuel r, ∀ extra : Nat,
        findAll g domain maxD (fuel + extra) links depth reg = some r) ∧
    findAll gCycle (str "e.com") (-1) 5 [⟨str "https://e.com/a", str "root"⟩] 0 [] =
      some ([(str "https://e.com/b", ⟨str "https://e.com/b", str "b"⟩),
             (str "https://e.com/a", ⟨str "https://e.com/a", str "root"⟩)], none) := by
  constructor
  · intro g domain maxD links depth reg
    obtain ⟨fuel, r, hr⟩ :=
      findAll_exists g domain maxD (missCount g reg) links depth reg le_rfl
    exact ⟨fuel, r, fun extra =>
      findAll_mono g domain maxD fuel _ _ _ _ hr (fuel + extra) (Nat.le_add_right _ _)⟩
  · decide

/-- C1 (against the claim): with the one-child fixture, fetching the child
`https://e.com/a` fails during expansion at depth 1, yet `findAll` discards
the recursive call's error (main.go:144), `main` sees a nil error, and the
process terminates SUCCESSFULLY with the partial registry {root, child}.
Only a failure while expanding the depth-0 frontier panics, as the third
conjunct shows for an unfetchable root. -/
theorem c1_deep_error_swallowed :
    parsePage gOneChild (str "https://e.com/a") (str "e.com") =
      .error (.fetchError (str "https://e.com/a")) ∧
    runMain gOneChild ⟨str "e.com", [], -1⟩ 5 =
      some (.success
        [(str "https://e.com/a", ⟨str "https://e.com/a", str "A"⟩),
         (str "https://e.com", ⟨str "https://e.com", str "Root link"⟩)]) ∧
    runMain [] ⟨str "e.com", [], -1⟩ 5 =
      some (.panicked (.fetchError (str "https://e.com"))
        [(str "https://e.com", ⟨str "https://e.com", str "Root link"⟩)]) := by
  refine ⟨by decide, by decide, by decide⟩

/-- C3 (against the claim): a link whose href carries a leading space
(`" /a"`) passes the filter — which tests the TRIMMED href — but is not
normalized, because the normalizer tests the UNTRIMMED first character
(main.go:119); a non-absolute href is stored in the visited registry. -/
theorem c3_nonabsolute_href_in_registry :
    runMain gSpace ⟨str "e.com", [], -1⟩ 5 =
      some (.success
        [(str " /a", ⟨str " /a", str "A"⟩),
         (str "https://e.com", ⟨str "https://e.com", str "Root link"⟩)]) ∧
    hasPrefix (str " /a") (str "http://") = false ∧
    hasPrefix (str " /a") (str "https://") = false := by
  refine ⟨by decide, by decide, by decide⟩

/-- C8 (against the claim): in XML mode with file creation failing,
`writeXml` returns the IOError, but `main` discards the returned error
(main.go:221) and the run still terminates successfully. -/
theorem c8_io_error_ignored :
    mainWrite false (str "out.xml")
        [(str "https://e.com", ⟨str "https://e.com", str "Root link"⟩)] =
      .toFile (.error .ioError) ∧
    runMain [] ⟨str "e.com", str "out.xml", 0⟩ 2 =
      some (.success [(str "https://e.com", ⟨str "https://e.com", str "Root link"⟩)]) := by
  refine ⟨by decide, by decide⟩

/-- C9: the serialized outputs are functions of the registry contents only:
any two iteration orders of the registry (Go map iteration order is
arbitrary) yield the same stdout listing and the same XML document, because
both writers sort by href before rendering. -/
theorem c9_deterministic_output :
    ∀ r1 r2 : Registry, List.Perm r1 r2 →
      writeBufOutput r1 = writeBufOutput r2 ∧ writeXmlOutput r1 = writeXmlOutput r2 := by
  intro r1 r2 hperm
  constructor
  · unfold writeBufOutput
    have hlen : r1.length = r2.length := hperm.length_eq
    have hsorted :
        (r1.map fun p => p.2.Href).insertionSort (fun a b : Str => a ≤ b) =
        (r2.map fun p => p.2.Href).insertionSort (fun a b : Str => a ≤ b) :=
      List.eq_of_perm_of_sorted
        ((List.perm_insertionSort _ _).trans ((hperm.map _).trans
          (List.perm_insertionSort _ _).symm))
        (List.sorted_insertionSort _ _) (List.sorted_insertionSort _ _)
    rw [hlen, hsorted]
  · unfold writeXmlOutput
    have hsorted :
        (r1.map fun p => url.mk p.2.Href).insertionSort (fun a b : url => a.Loc ≤ b.Loc) =
        (r2.map fun p => url.mk p.2.Href).insertionSort (fun a b : url => a.Loc ≤ b.Loc) :=
      List.eq_of_perm_of_sorted
        ((List.perm_insertionSort _ _).trans ((hperm.map _).trans
          (List.perm_insertionSort _ _).symm))
        (List.sorted_insertionSort _ _) (List.sorted_insertionSort _ _)
    rw [hsorted]

/-- C9 witness: two iteration orders of a two-entry registry produce
identical outputs. -/
theorem c9_deterministic_output_witness :
    writeBufOutput [(str "https://e.com/b", ⟨str "https://e.com/b", str "b"⟩),
        (str "https://e.com/a", ⟨str "https://e.com/a", str "a"⟩)] =
      writeBufOutput [(str "https://e.com/a", ⟨str "https://e.com/a", str "a"⟩),
        (str "https://e.com/b", ⟨str "https://e.com/b", str "b"⟩)] ∧
    writeXmlOutput [(str "https://e.com/b", ⟨str "https://e.com/b", str "b"⟩),
        (str "https://e.com/a", ⟨str "https://e.com/a", str "a"⟩)] =
      writeXmlOutput [(str "https://e.com/a", ⟨str "https://e.com/a", str "a"⟩),
        (str "https://e.com/b", ⟨str "https://e.com/b", str "b"⟩)] :=
  c9_deterministic_output _ _ (by decide)

theorem str_https : str "https://" =
    'h' :: 't' :: 't' :: 'p' :: 's' :: ':' :: '/' :: '/' :: [] := rfl

theorem str_http : str "http://" =
    'h' :: 't' :: 't' :: 'p' :: ':' :: '/' :: '/' :: [] := rfl

/-- A colon-free hostname followed by `/` is never a prefix of
`https://` followed by itself: the scheme's colon cannot be matched. -/
theorem not_prefix_https (bare : Str) (hb : ':' ∉ bare) :
    ¬ (bare ++ str "/" <+: str "https://" ++ (bare ++ str "/")) := by
  intro H
  obtain ⟨t, ht⟩ := H
  rw [str_https] at ht
  rcases bare with _ | ⟨a, _ | ⟨b, _ | ⟨c, _ | ⟨d, _ | ⟨e, _ | ⟨f, r⟩⟩⟩⟩⟩⟩ <;>
    simp [str] at ht
  · exact hb (by simp [ht.2.2.2.2.2.1])

/-- A colon-free hostname followed by `/` is never a prefix of
`http://` followed by itself. -/
theorem not_prefix_http (bare : Str) (hb : ':' ∉ bare) :
    ¬ (bare ++ str "/" <+: str "http://" ++ (bare ++ str "/")) := by
  intro H
  obtain ⟨t, ht⟩ := H
  rw [str_http] at ht
  rcases bare with _ | ⟨a, _ | ⟨b, _ | ⟨c, _ | ⟨d, _ | ⟨e, r⟩⟩⟩⟩⟩ <;>
    simp [str] at ht
  · exact hb (by simp [ht.2.2.2.2.1])

/-- With a scheme-bearing domain value `sch0 ++ bare` (hostname `bare`
colon-free), no string that starts with `sch' ++ bare ++ "/"` — an absolute
same-domain href — can also start with the doubly-prefixed
`schI ++ (sch0 ++ bare) ++ "/"` that `hasScheme` tests against. -/
theorem c10_double_prefix_rejected (bare t : Str) (hb : ':' ∉ bare) :
    ∀ sch0 ∈ schemes, ∀ sch' ∈ schemes, ∀ schI ∈ schemes,
      ¬ (schI ++ ((sch0 ++ bare) ++ str "/") <+: (sch' ++ bare ++ str "/") ++ t) := by
  intro sch0 hsch0 sch' hsch' schI hschI hP
  have hQ : sch' ++ bare ++ str "/" <+: (sch' ++ bare ++ str "/") ++ t :=
    List.prefix_append _ _
  simp only [schemes, List.mem_cons, List.not_mem_nil, or_false] at hsch0 hsch' hschI
  rcases hsch0 with rfl | rfl <;> rcases hsch' with rfl | rfl <;>
    rcases hschI with rfl | rfl <;>
  · have hQP := List.prefix_of_prefix_length_le hQ hP
      (by simp [str_https, str_http])
    simp only [str_https, str_http, List.cons_append, List.nil_append,
      List.cons_prefix_cons, eq_self_iff_true, true_and] at hQP
    first
      | exact not_prefix_https bare hb hQP
      | exact not_prefix_http bare hb hQP
      | exact absurd hQP.1 (by decide)

theorem prefix_of_isPrefixOf {s p : Str} (h : p.isPrefixOf s = true) : p <+: s :=
  List.isPrefixOf_iff_prefix.mp h

/-- C10: when the `--domain` flag value itself carries a scheme — it equals
`sch0 ++ bare` with `sch0` one of the schemes and `bare` a (colon-free)
hostname — then (i) the root URL is used as given (`fulldomain` adds no
scheme), (ii) the filter receives the raw flag value, tests absolute hrefs
against the doubly-prefixed `"http(s)://" ++ <scheme-bearing-domain> ++ "/"`,
and hence rejects every absolute same-domain href (every href whose trimmed
form starts with `http://bare/` or `https://bare/`), and (iii) a root-relative
href that passes is normalized to the malformed
`"https://" ++ <scheme-bearing-domain> ++ path`. -/
theorem c10_scheme_bearing_domain :
    ∀ bare : Str, ':' ∉ bare → ∀ sch0 ∈ schemes,
      fullDomain (sch0 ++ bare) = sch0 ++ bare ∧
      (∀ l : Link, ∀ sch' ∈ schemes,
        sch' ++ bare ++ str "/" <+: trimSpace l.Href →
        filterPred (sch0 ++ bare) l = false) ∧
      (∀ l : Link, l.Href.head? = some '/' →
        normalize (sch0 ++ bare) l =
          ⟨str "https://" ++ (sch0 ++ bare) ++ l.Href, l.Text⟩) := by
  intro bare hb sch0 hsch0
  refine ⟨?_, ?_, ?_⟩
  · have hs : hasScheme (sch0 ++ bare) [] = true := by
      simp only [hasScheme, schemes, List.any_cons, List.any_nil, hasPrefix,
        List.append_nil, Bool.or_false, Bool.or_eq_true, List.isPrefixOf_iff_prefix]
      simp only [schemes, List.mem_cons, List.not_mem_nil, or_false] at hsch0
      rcases hsch0 with rfl | rfl
      · exact Or.inl (List.prefix_append _ _)
      · exact Or.inr (List.prefix_append _ _)
    unfold fullDomain
    rw [if_pos hs]
  · intro l sch' hsch' hpre
    obtain ⟨t, ht⟩ := hpre
    simp only [filterPred]
    rw [← ht]
    have hhead : ((sch' ++ bare ++ str "/") ++ t).head? ≠ some '/' := by
      have hsch'2 := hsch'
      simp only [schemes, List.mem_cons, List.not_mem_nil, or_false] at hsch'2
      rcases hsch'2 with rfl | rfl <;>
        simp [str_https, str_http, List.cons_append]
    have h1 : ¬ (str "https://" ++ ((sch0 ++ bare) ++ str "/") <+:
        (sch' ++ bare ++ str "/") ++ t) :=
      c10_double_prefix_rejected bare t hb sch0 hsch0 sch' hsch' (str "https://")
        (by simp [schemes])
    have h2 : ¬ (str "http://" ++ ((sch0 ++ bare) ++ str "/") <+:
        (sch' ++ bare ++ str "/") ++ t) :=
      c10_double_prefix_rejected bare t hb sch0 hsch0 sch' hsch' (str "http://")
        (by simp [schemes])
    have hdom : hasDomain ((sch' ++ bare ++ str "/") ++ t) (sch0 ++ bare) = false := by
      simp only [hasDomain, hasScheme, schemes, List.any_cons, List.any_nil,
        hasPrefix, Bool.or_false]
      have horr : ((((sch' ++ bare ++ str "/") ++ t).head? == some '/') ||
          ((str "https://" ++ ((sch0 ++ bare) ++ str "/")).isPrefixOf
            ((sch' ++ bare ++ str "/") ++ t) ||
           (str "http://" ++ ((sch0 ++ bare) ++ str "/")).isPrefixOf
            ((sch' ++ bare ++ str "/") ++ t))) = false := by
        rw [Bool.or_eq_false_iff, Bool.or_eq_false_iff]
        refine ⟨beq_eq_false_iff_ne.mpr hhead, ?_, ?_⟩
        · rw [Bool.eq_false_iff]
          intro hc
          exact h1 (prefix_of_isPrefixOf hc)
        · rw [Bool.eq_false_iff]
          intro hc
          exact h2 (prefix_of_isPrefixOf hc)
      rw [horr, Bool.and_false]
    rw [hdom, Bool.and_false]
  · intro l hhead
    have hcond : (l.Href.head? == some '/') = true := by rw [hhead]; rfl
    simp only [normalize]
    rw [if_pos hcond]

/-- C10 witness: flag value `https://example.com` — the root is used as
given, the absolute same-domain href `https://example.com/a` is rejected by
the filter, and `/a` normalizes to the malformed
`https://https://example.com/a`. -/
theorem c10_scheme_bearing_domain_witness :
    fullDomain (str "https://" ++ str "example.com") =
      str "https://" ++ str "example.com" ∧
    filterPred (str "https://" ++ str "example.com")
      ⟨str "https://example.com/a", []⟩ = false ∧
    normalize (str "https://" ++ str "example.com") ⟨str "/a", str "x"⟩ =
      ⟨str "https://" ++ (str "https://" ++ str "example.com") ++ str "/a", str "x"⟩ := by
  obtain ⟨h1, h2, h3⟩ := c10_scheme_bearing_domain (str "example.com") (by decide)
    (str "https://") (by simp [schemes])
  exact ⟨h1, h2 ⟨str "https://example.com/a", []⟩ (str "https://") (by simp [schemes])
    (by decide), h3 ⟨str "/a", str "x"⟩ (by decide)⟩

end Sitemap
